import Mathlib

/-!
Verification of the Thai Banking Compliance RAG Embedding Benchmark core.

Shallow embedding of the repository's core algorithms:
* `wer_service.py`   — text normalization and per-page word-error-rate scoring;
* `evaluation_service.py` — robust numeric score extraction from grader text;
* `embedding_service.py`  — cosine similarity and deduplicated top-k retrieval;
* `app.py` (`create_chunks`) — the chunking stage's effect on a session's records.

Floating-point vectors are modelled as lists of rationals; the cosine value
lives in `ℝ` because it divides by a product of square roots.  Strings are
processed on their underlying `List Char`, mirroring the Python string
operations character by character.
-/

namespace RagBench

/-! ## Character-level string utilities (Python `str` operations) -/

/-- Python whitespace characters stripped by `str.strip()`
(space, tab, newline, carriage return, vertical tab, form feed). -/
def isPyWS (c : Char) : Bool :=
  c = ' ' || c = '\t' || c = '\n' || c = '\r' || c = '\x0b' || c = '\x0c'

/-- Strip characters satisfying `p` from both ends, as Python `str.strip`. -/
def stripBoth (p : Char → Bool) (s : List Char) : List Char :=
  ((s.dropWhile p).reverse.dropWhile p).reverse

/-- Python `text.split(sep)` for a single-character separator. -/
def splitOnChar (sep : Char) : List Char → List (List Char)
  | [] => [[]]
  | c :: cs =>
    if c = sep then [] :: splitOnChar sep cs
    else
      match splitOnChar sep cs with
      | [] => [[c]]
      | t :: ts => (c :: t) :: ts

/-- Python `pat in s` substring test (for `pat` a plain pattern). -/
def containsSub (pat : List Char) : List Char → Bool
  | [] => pat.isEmpty
  | c :: cs => pat.isPrefixOf (c :: cs) || containsSub pat cs

/-- Python `s.replace(pat, repl)`: replace non-overlapping occurrences
left to right.  Structural recursion on a fuel bounded by the length of the
scanned text (each step consumes at least one character when `pat ≠ []`). -/
def replaceAllAux (pat repl : List Char) : Nat → List Char → List Char
  | _, [] => []
  | 0, s => s
  | fuel + 1, c :: cs =>
    if pat.isPrefixOf (c :: cs) ∧ pat ≠ [] then
      repl ++ replaceAllAux pat repl fuel ((c :: cs).drop pat.length)
    else
      c :: replaceAllAux pat repl fuel cs

/-- Python `s.replace(pat, repl)` (the source only replaces non-empty
patterns, on which the fuel `s.length` is sufficient). -/
def replaceAll (pat repl s : List Char) : List Char :=
  replaceAllAux pat repl s.length s

/-- Python `s.split(sep)` for a non-empty separator: split at each
non-overlapping occurrence, left to right. -/
def splitOnListAux (sep : List Char) : Nat → List Char → List (List Char)
  | _, [] => [[]]
  | 0, s => [s]
  | fuel + 1, c :: cs =>
    if sep.isPrefixOf (c :: cs) ∧ sep ≠ [] then
      [] :: splitOnListAux sep fuel ((c :: cs).drop sep.length)
    else
      match splitOnListAux sep fuel cs with
      | [] => [[c]]
      | t :: ts => (c :: t) :: ts

/-- Python `s.split(sep)` for a non-empty separator. -/
def splitOnList (sep s : List Char) : List (List Char) :=
  splitOnListAux sep s.length s

/-! ## `wer_service.normalize_text` -/

/-- The regex character class `[^\W_]` of `normalize_text`: a Unicode letter
or digit (underscore excluded).  Beyond ASCII the full Unicode tables are
elided; every theorem below only uses that `' '` and `':'` are not token
characters. -/
def isWordChar (c : Char) : Bool :=
  c.isAlpha || c.isDigit

/-- `re.findall(pattern-class p, text)`: the maximal runs of characters
satisfying `p`, in order. -/
def tokenize (p : Char → Bool) : List Char → List (List Char)
  | [] => []
  | c :: cs =>
    let rest := tokenize p cs
    if p c then
      match cs with
      | [] => [[c]]
      | c2 :: _ =>
        if p c2 then
          match rest with
          | [] => [[c]]
          | t :: ts => (c :: t) :: ts
        else
          [c] :: rest
    else
      rest

/-- Python `' '.join(tokens)`. -/
def joinTokens : List (List Char) → List Char
  | [] => []
  | [t] => t
  | t :: ts => t ++ ' ' :: joinTokens ts

/-- `wer_service.normalize_text`: keep only letter/digit tokens, joined by
single spaces. -/
def normalize_text (s : String) : String :=
  ⟨joinTokens (tokenize isWordChar s.data)⟩

/-! ## `wer_service.compute_page_wer` -/

/-- Word list of a normalized string, as tokenized by the WER backend
(jiwer splits on the `' '` delimiter and discards empty words). -/
def wordsOf (s : String) : List (List Char) :=
  tokenize (fun c => !(c = ' ')) s.data

/-- Levenshtein edit distance on word lists, with a structural fuel
(`levAux fuel` agrees with the distance whenever each recursion step can
consume a unit of fuel; `levenshtein` supplies enough). -/
def levAux : Nat → List (List Char) → List (List Char) → Nat
  | _, [], ys => ys.length
  | _, x :: xs, [] => (x :: xs).length
  | 0, _ :: _, _ :: _ => 0
  | fuel + 1, x :: xs, y :: ys =>
    if x = y then levAux fuel xs ys
    else 1 + min (levAux fuel xs (y :: ys)) (min (levAux fuel (x :: xs) ys) (levAux fuel xs ys))

/-- Levenshtein edit distance on word lists. -/
def levenshtein (xs ys : List (List Char)) : Nat :=
  levAux (xs.length + ys.length) xs ys

/-- Modelled from the spec: `jiwer.wer` (not part of this repository) —
"edit-distance-based substitutions+deletions+insertions divided by
reference word count, using whitespace-tokenized words of the normalized
strings". -/
def compute_wer (reference hypothesis : String) : ℚ :=
  (levenshtein (wordsOf reference) (wordsOf hypothesis) : ℚ) / ((wordsOf reference).length : ℚ)

/-- Python `round` to the nearest integer, halves to even (banker's
rounding, the semantics of `round(x, n)` on exact values). -/
def roundHalfEven (x : ℚ) : ℤ :=
  let f := ⌊x⌋
  let r := x - (f : ℚ)
  if r < 1/2 then f
  else if 1/2 < r then f + 1
  else if f % 2 = 0 then f else f + 1

/-- Python `round(x, 4)`. -/
def round4 (x : ℚ) : ℚ :=
  (roundHalfEven (x * 10000) : ℚ) / 10000

/-- `wer_service.compute_page_wer`: normalize both texts; an empty
normalized reference scores `0`, an empty normalized OCR text scores `1`,
otherwise the rounded word error rate of the normalized strings.  The
modelled WER computation is total, so the `except` branch returning the
`-1` sentinel is unreachable here. -/
def compute_page_wer (ocr_text reference_text : String) : ℚ :=
  let normOcr := normalize_text ocr_text
  let normRef := normalize_text reference_text
  if stripBoth isPyWS normRef.data = [] then 0
  else if stripBoth isPyWS normOcr.data = [] then 1
  else round4 (compute_wer normRef normOcr)

/-! ## `evaluation_service._extract_score` -/

/-- Value of a decimal digit. -/
def digitVal (c : Char) : Nat :=
  c.toNat - '0'.toNat

/-- Numeric value of a digit run. -/
def digitsToNat (ds : List Char) : Nat :=
  ds.foldl (fun n c => 10 * n + digitVal c) 0

/-- `re.search(pattern, s)` for the pattern `\d+(?:\.\d+)?`: the leftmost
match, returned as the integer digits together with the optional fractional
digits. -/
def findNumber : List Char → Option (List Char × Option (List Char))
  | [] => none
  | c :: cs =>
    if c.isDigit then
      let ds := c :: cs.takeWhile Char.isDigit
      let rest := cs.dropWhile Char.isDigit
      match rest with
      | '.' :: r2 =>
        let frac := r2.takeWhile Char.isDigit
        if frac = [] then some (ds, none) else some (ds, some frac)
      | _ => some (ds, none)
    else
      findNumber cs

/-- Python `float` of a matched numeric token. -/
def numValue : List Char × Option (List Char) → ℚ
  | (ds, none) => (digitsToNat ds : ℚ)
  | (ds, some frac) => (digitsToNat ds : ℚ) + (digitsToNat frac : ℚ) / (10 : ℚ) ^ frac.length

/-- One iteration of the `_extract_score` loop: the score a single line
yields for `label`, if any.  The line must contain the label; emphasis
markup is removed (`"**"` then `"*"`), the line is split on the label, and
the first numeric token after the label (stripped of whitespace and colons)
is the score. -/
def lineScore (label line : List Char) : Option ℚ :=
  if containsSub label line then
    let clean := replaceAll ['*'] [] (replaceAll ['*', '*'] [] line)
    match splitOnList label clean with
    | _ :: p1 :: _ =>
      let numStr := stripBoth isPyWS (stripBoth (fun c => c = ':') (stripBoth isPyWS p1))
      (findNumber numStr).map numValue
    | _ => none
  else
    none

/-- `evaluation_service._extract_score`: scan the text line by line and
return the first line's score for `label`, defaulting to `0`. -/
def extract_score (text label : String) : ℚ :=
  match (splitOnChar '\n' text.data).findSome? (lineScore label.data) with
  | some v => v
  | none => 0

/-! ## `embedding_service`: cosine similarity and top-k retrieval -/

/-- An embedding vector (exact model of a `numpy` float vector). -/
abbrev Vec := List ℚ

/-- Squared Euclidean norm; `np.linalg.norm a == 0` iff `normSq a = 0`. -/
def normSq (a : Vec) : ℚ :=
  (a.map fun x => x * x).sum

/-- `np.dot` on two equal-length vectors. -/
def dotQ (a b : Vec) : ℚ :=
  (List.zipWith (· * ·) a b).sum

/-- The numeric value `cosine_similarity` produces when it returns. -/
noncomputable def cosValue (a b : Vec) : ℝ :=
  if normSq a = 0 ∨ normSq b = 0 then 0
  else (dotQ a b : ℝ) / (Real.sqrt (normSq a) * Real.sqrt (normSq b))

/-- `embedding_service.cosine_similarity`: zero if either norm is zero
(checked first), then `np.dot` — which raises on a dimension mismatch,
modelled as `Except.error` — and otherwise the cosine of the two vectors. -/
noncomputable def cosine_similarity (a b : Vec) : Except Unit ℝ :=
  if normSq a = 0 ∨ normSq b = 0 then Except.ok 0
  else if a.length ≠ b.length then Except.error ()
  else Except.ok ((dotQ a b : ℝ) / (Real.sqrt (normSq a) * Real.sqrt (normSq b)))

/-- A stored candidate: `{"chunk_text": str, "embedding": np.ndarray, ...}`. -/
structure Cand where
  chunk_text : String
  embedding : Vec

/-- A scored item `{**item, "similarity": sim}`. -/
structure Scored where
  chunk_text : String
  embedding : Vec
  similarity : ℝ

/-- The scoring loop of `retrieve_top_k`: attach a similarity to every
stored item; the first raising `cosine_similarity` call aborts the whole
retrieval. -/
noncomputable def scoreAll (q : Vec) : List Cand → Except Unit (List Scored)
  | [] => Except.ok []
  | c :: rest =>
    match cosine_similarity q c.embedding with
    | Except.error e => Except.error e
    | Except.ok s =>
      match scoreAll q rest with
      | Except.error e => Except.error e
      | Except.ok tl => Except.ok ({ chunk_text := c.chunk_text, embedding := c.embedding, similarity := s } :: tl)

/-- Stable insertion step of the descending sort: `x` is placed before the
first element whose similarity does not exceed it, so equal similarities
keep their original relative order, exactly as Python's stable
`list.sort(key=..., reverse=True)`. -/
noncomputable def insertDesc (x : Scored) : List Scored → List Scored
  | [] => [x]
  | y :: ys => if x.similarity < y.similarity then y :: insertDesc x ys else x :: y :: ys

/-- `scored.sort(key=lambda x: x["similarity"], reverse=True)` — a stable
descending sort (any stable sort computes the same list). -/
noncomputable def sortDesc : List Scored → List Scored
  | [] => []
  | x :: xs => insertDesc x (sortDesc xs)

/-- The deduplication loop of `retrieve_top_k`: keep the first occurrence
of each chunk text, tracking the texts already `seen`. -/
def dedupSeen (seen : List String) : List Scored → List Scored
  | [] => []
  | x :: xs =>
    if x.chunk_text ∈ seen then dedupSeen seen xs
    else x :: dedupSeen (x.chunk_text :: seen) xs

/-- Deduplicate by chunk text, keeping first occurrences. -/
def dedupFirst (l : List Scored) : List Scored :=
  dedupSeen [] l

/-- `embedding_service.retrieve_top_k`: score every candidate, sort by
similarity descending (stable), deduplicate by chunk text keeping the
first (hence highest-similarity) occurrence, and truncate to `k`. -/
noncomputable def retrieve_top_k (query_embedding : Vec) (stored_embeddings : List Cand) (top_k : Nat) : Except Unit (List Scored) :=
  match scoreAll query_embedding stored_embeddings with
  | Except.error e => Except.error e
  | Except.ok scored => Except.ok ((dedupFirst (sortDesc scored)).take top_k)

/-- The scored list of a candidate pool on the non-raising path. -/
noncomputable def scoredOf (q : Vec) (stored : List Cand) : List Scored :=
  stored.map fun c => { chunk_text := c.chunk_text, embedding := c.embedding, similarity := cosValue q c.embedding }

/-! ## `app.create_chunks`: the chunking stage on a session's records -/

/-- A chunk row (`recursive_chunks` / `agentic_chunks`). -/
structure ChunkR where
  page_number : Nat
  chunk_index : Nat
  chunk_text : String

/-- A `chunk_embeddings` row (one vector per model variant, sparse). -/
structure EmbR where
  chunk_id : Nat
  chunk_type : String
  chunk_text : String
  embedding_4b : Option Vec
  embedding_8b : Option Vec

/-- An `evaluation_results` row: holds both the generated answer of a
`(question, model, chunk set)` triple and, once graded, its evaluation
text and score. -/
structure EvalR where
  question_number : Nat
  model_name : String
  chunk_type : String
  llm_answer : String
  evaluation_score : Option ℚ

/-- The records of one session that `create_chunks` touches or could
touch: its OCR pages, both chunk sets, the embedding rows, the
answer/evaluation rows, and the session status. -/
structure SessionDb where
  ocrPages : List String
  recChunks : List ChunkR
  agChunks : List ChunkR
  chunkEmbeddings : List EmbR
  evaluationResults : List EvalR
  status : String

/-- `app.create_chunks` for one session: a 404 error when the session has
no OCR pages; otherwise both chunk tables are cleared and refilled with
the freshly computed chunk lists (passed in here, since the chunkers call
an external model) and the status becomes `"chunked"`.  No other table is
touched. -/
def create_chunks (db : SessionDb) (newRec newAg : List ChunkR) : Except Unit SessionDb :=
  if db.ocrPages.isEmpty then Except.error ()
  else Except.ok { db with recChunks := newRec, agChunks := newAg, status := "chunked" }

/-! ## Lemmas: tokenization and normalization -/

theorem tokenize_eq (p : Char → Bool) (c : Char) (cs : List Char) :
    tokenize p (c :: cs) =
      if p c then
        match cs with
        | [] => [[c]]
        | c2 :: _ =>
          if p c2 then
            match tokenize p cs with
            | [] => [[c]]
            | t :: ts => (c :: t) :: ts
          else [c] :: tokenize p cs
      else tokenize p cs := rfl

theorem tokenize_cons_neg (p : Char → Bool) (c : Char) (cs : List Char) (hc : p c = false) :
    tokenize p (c :: cs) = tokenize p cs := by
  rw [tokenize_eq]
  simp [hc]

theorem tokenize_wf (p : Char → Bool) :
    ∀ s : List Char, ∀ t ∈ tokenize p s, t ≠ [] ∧ ∀ c ∈ t, p c = true := by
  intro s
  induction s with
  | nil => simp [tokenize]
  | cons c cs ih =>
    intro t ht
    rw [tokenize_eq] at ht
    by_cases hc : p c = true
    · simp only [hc, if_true] at ht
      rcases cs with _ | ⟨c2, cs'⟩
      · simp at ht
        subst ht
        exact ⟨by simp, by intro a ha; simp at ha; subst ha; exact hc⟩
      · by_cases hc2 : p c2 = true
        · simp only [hc2, if_true] at ht
          rcases hrest : tokenize p (c2 :: cs') with _ | ⟨t0, ts⟩
          · rw [hrest] at ht
            simp at ht
            subst ht
            exact ⟨by simp, by intro a ha; simp at ha; subst ha; exact hc⟩
          · rw [hrest] at ht
            simp only [List.mem_cons] at ht
            rcases ht with rfl | ht
            · have h0 := ih t0 (by rw [hrest]; exact List.mem_cons_self _ _)
              refine ⟨by simp, ?_⟩
              intro a ha
              rcases List.mem_cons.1 ha with rfl | ha
              · exact hc
              · exact h0.2 a ha
            · exact ih t (by rw [hrest]; exact List.mem_cons_of_mem _ ht)
        · rw [Bool.not_eq_true] at hc2
          simp only [hc2, Bool.false_eq_true, if_false, List.mem_cons] at ht
          rcases ht with rfl | ht
          · refine ⟨by simp, ?_⟩
            intro a ha
            simp at ha
            subst ha
            exact hc
          · exact ih t ht
    · rw [Bool.not_eq_true] at hc
      simp only [hc, Bool.false_eq_true, if_false] at ht
      exact ih t ht

theorem tokenize_run_append (p : Char → Bool) :
    ∀ t : List Char, t ≠ [] → (∀ c ∈ t, p c = true) →
      ∀ s : List Char, (s = [] ∨ ∃ d ds, s = d :: ds ∧ p d = false) →
        tokenize p (t ++ s) = t :: tokenize p s := by
  intro t
  induction t with
  | nil => intro h; exact absurd rfl h
  | cons c t' ih =>
    intro _ hall s hs
    have hc : p c = true := hall c (List.mem_cons_self _ _)
    rcases t' with _ | ⟨c2, t''⟩
    · rcases hs with rfl | ⟨d, ds, rfl, hd⟩
      · show tokenize p [c] = [c] :: tokenize p []
        rw [tokenize_eq]
        simp [hc, tokenize]
      · show tokenize p (c :: d :: ds) = [c] :: tokenize p (d :: ds)
        rw [tokenize_eq]
        simp [hc, hd]
    · have hc2 : p c2 = true := hall c2 (by simp)
      have ih' := ih (by simp) (fun a ha => hall a (List.mem_cons_of_mem _ ha)) s hs
      show tokenize p (c :: ((c2 :: t'') ++ s)) = (c :: c2 :: t'') :: tokenize p s
      rw [tokenize_eq]
      simp only [List.cons_append, hc, hc2, if_true]
      simp only [List.cons_append] at ih'
      rw [ih']

theorem tokenize_join (p : Char → Bool) (hspace : p ' ' = false) :
    ∀ ts : List (List Char), (∀ t ∈ ts, t ≠ [] ∧ ∀ c ∈ t, p c = true) →
      tokenize p (joinTokens ts) = ts := by
  intro ts
  induction ts with
  | nil => intro _; simp [joinTokens, tokenize]
  | cons t rest ih =>
    intro hwf
    have ht := hwf t (List.mem_cons_self _ _)
    rcases rest with _ | ⟨t2, rest'⟩
    · show tokenize p (joinTokens [t]) = [t]
      have : joinTokens [t] = t ++ [] := by simp [joinTokens]
      rw [this, tokenize_run_append p t ht.1 ht.2 [] (Or.inl rfl)]
      simp [tokenize]
    · have hjoin : joinTokens (t :: t2 :: rest') = t ++ ' ' :: joinTokens (t2 :: rest') := rfl
      rw [hjoin,
        tokenize_run_append p t ht.1 ht.2 (' ' :: joinTokens (t2 :: rest'))
          (Or.inr ⟨' ', _, rfl, hspace⟩),
        tokenize_cons_neg p ' ' _ hspace,
        ih (fun a ha => hwf a (List.mem_cons_of_mem _ ha))]

/-- C10: text normalization is idempotent — the output consists only of
letter/digit tokens joined by single spaces, and re-tokenizing such a
string recovers exactly the same tokens. -/
theorem normalize_text_idempotent :
    ∀ s : String, normalize_text (normalize_text s) = normalize_text s := by
  intro s
  show (⟨joinTokens (tokenize isWordChar (normalize_text s).data)⟩ : String) = normalize_text s
  have hdata : (normalize_text s).data = joinTokens (tokenize isWordChar s.data) := rfl
  rw [hdata, tokenize_join isWordChar (by decide) _ (tokenize_wf isWordChar s.data)]
  rfl

/-! ## Lemmas: word error rate -/

theorem levAux_self : ∀ (fuel : Nat) (xs : List (List Char)), levAux fuel xs xs = 0 := by
  intro fuel xs
  induction xs generalizing fuel with
  | nil => cases fuel <;> simp [levAux]
  | cons x xs ih =>
    cases fuel with
    | zero => simp [levAux]
    | succ fuel => simp [levAux, ih]

theorem levenshtein_self (xs : List (List Char)) : levenshtein xs xs = 0 :=
  levAux_self _ xs

theorem compute_wer_self (s : String) : compute_wer s s = 0 := by
  unfold compute_wer
  rw [levenshtein_self]
  simp

theorem compute_wer_nonneg (reference hypothesis : String) :
    0 ≤ compute_wer reference hypothesis := by
  unfold compute_wer
  positivity

theorem roundHalfEven_nonneg {x : ℚ} (hx : 0 ≤ x) : 0 ≤ roundHalfEven x := by
  have hf : 0 ≤ ⌊x⌋ := Int.floor_nonneg.2 hx
  unfold roundHalfEven
  dsimp only
  split_ifs <;> omega

theorem roundHalfEven_intCast (n : ℤ) : roundHalfEven (n : ℚ) = n := by
  unfold roundHalfEven
  norm_num

theorem round4_zero : round4 0 = 0 := by
  unfold round4
  rw [show ((0 : ℚ) * 10000) = ((0 : ℤ) : ℚ) by norm_num, roundHalfEven_intCast]
  norm_num

theorem round4_nonneg {x : ℚ} (hx : 0 ≤ x) : 0 ≤ round4 x := by
  unfold round4
  have h := roundHalfEven_nonneg (mul_nonneg hx (by norm_num : (0:ℚ) ≤ 10000))
  have : (0 : ℚ) ≤ (roundHalfEven (x * 10000) : ℚ) := by exact_mod_cast h
  positivity

theorem compute_page_wer_def (ocr_text reference_text : String) :
    compute_page_wer ocr_text reference_text =
      if stripBoth isPyWS (normalize_text reference_text).data = [] then 0
      else if stripBoth isPyWS (normalize_text ocr_text).data = [] then 1
      else round4 (compute_wer (normalize_text reference_text) (normalize_text ocr_text)) := rfl

theorem compute_page_wer_nonneg_aux (ocr_text reference_text : String) :
    0 ≤ compute_page_wer ocr_text reference_text := by
  rw [compute_page_wer_def]
  split_ifs with h1 h2
  · norm_num
  · norm_num
  · exact round4_nonneg (compute_wer_nonneg _ _)

theorem mem_dropWhile_of_neg (p : Char → Bool) {c : Char} (hc : p c = false) :
    ∀ l : List Char, c ∈ l → c ∈ l.dropWhile p := by
  intro l
  induction l with
  | nil => intro h; simp at h
  | cons a as ih =>
    intro h
    by_cases ha : p a = true
    · rw [List.dropWhile_cons_of_pos ha]
      rcases List.mem_cons.1 h with rfl | h
      · rw [ha] at hc; simp at hc
      · exact ih h
    · rw [List.dropWhile_cons_of_neg ha]
      exact h

theorem stripBoth_ne_nil (p : Char → Bool) {c : Char} {l : List Char}
    (hc : p c = false) (hmem : c ∈ l) : stripBoth p l ≠ [] := by
  unfold stripBoth
  have h1 : c ∈ l.dropWhile p := mem_dropWhile_of_neg p hc l hmem
  have h2 : c ∈ (l.dropWhile p).reverse := List.mem_reverse.2 h1
  have h3 : c ∈ (l.dropWhile p).reverse.dropWhile p := mem_dropWhile_of_neg p hc _ h2
  intro h
  rw [List.reverse_eq_nil_iff] at h
  rw [h] at h3
  simp at h3

theorem isWordChar_not_ws {c : Char} (h : isWordChar c = true) : isPyWS c = false := by
  cases hw : isPyWS c
  · rfl
  · exfalso
    simp only [isPyWS, Bool.or_eq_true, decide_eq_true_eq] at hw
    have hcases : c = ' ' ∨ c = '\t' ∨ c = '\n' ∨ c = '\r' ∨ c = '\x0b' ∨ c = '\x0c' := by
      tauto
    rcases hcases with rfl | rfl | rfl | rfl | rfl | rfl <;> exact absurd h (by decide)

theorem normalize_text_data (s : String) :
    (normalize_text s).data = joinTokens (tokenize isWordChar s.data) := rfl

theorem strip_normalize_ne_nil {s : String} (h : normalize_text s ≠ "") :
    stripBoth isPyWS (normalize_text s).data ≠ [] := by
  rcases hts : tokenize isWordChar s.data with _ | ⟨t, ts'⟩
  · exfalso
    apply h
    apply String.ext
    rw [normalize_text_data, hts]
    rfl
  · have hwf := tokenize_wf isWordChar s.data t (by rw [hts]; exact List.mem_cons_self _ _)
    rcases ht : t with _ | ⟨c, t''⟩
    · exact absurd ht hwf.1
    · have hcw : isWordChar c = true := hwf.2 c (by rw [ht]; exact List.mem_cons_self _ _)
      have hcmem : c ∈ (normalize_text s).data := by
        rw [normalize_text_data, hts, ht]
        rcases ts' with _ | ⟨t2, ts''⟩
        · show c ∈ joinTokens [c :: t'']
          simp [joinTokens]
        · show c ∈ joinTokens ((c :: t'') :: t2 :: ts'')
          show c ∈ (c :: t'') ++ ' ' :: joinTokens (t2 :: ts'')
          simp
      exact stripBoth_ne_nil isPyWS (isWordChar_not_ws hcw) hcmem

/-- C4: `compute_page_wer` scores `0` when the normalized reference is
empty, `1` when the reference is non-empty but the normalized OCR text is
empty, `0` when the normalized texts agree; the modelled WER computation
is total, so the `-1` failure sentinel is never produced (it would be
returned exactly by the unreachable exception branch). -/
theorem compute_page_wer_spec :
    ∀ ocr_text reference_text : String,
      (normalize_text reference_text = "" → compute_page_wer ocr_text reference_text = 0) ∧
      (normalize_text reference_text ≠ "" → normalize_text ocr_text = "" →
        compute_page_wer ocr_text reference_text = 1) ∧
      (normalize_text ocr_text = normalize_text reference_text →
        compute_page_wer ocr_text reference_text = 0) ∧
      compute_page_wer ocr_text reference_text ≠ -1 := by
  intro ocr ref
  refine ⟨?_, ?_, ?_, ?_⟩
  · intro h
    rw [compute_page_wer_def, h]
    rw [if_pos (by rfl)]
  · intro href hocr
    rw [compute_page_wer_def, hocr]
    rw [if_neg (strip_normalize_ne_nil href)]
    rw [if_pos (by rfl)]
  · intro h
    by_cases h1 : stripBoth isPyWS (normalize_text ref).data = []
    · rw [compute_page_wer_def, if_pos h1]
    · rw [compute_page_wer_def, if_neg h1, h, if_neg h1, compute_wer_self, round4_zero]
  · have := compute_page_wer_nonneg_aux ocr ref
    intro hcontra
    rw [hcontra] at this
    norm_num at this

/-- Witness for C4 at the spec's own test vectors. -/
theorem compute_page_wer_spec_witness :
    normalize_text "" = "" ∧ compute_page_wer "abc def" "" = 0 ∧
    normalize_text "abc def" ≠ "" ∧ compute_page_wer "" "abc def" = 1 ∧
    compute_page_wer "abc def" "abc def" = 0 :=
  ⟨by decide, (compute_page_wer_spec "abc def" "").1 (by decide),
   by decide, (compute_page_wer_spec "" "abc def").2.1 (by decide) (by decide),
   (compute_page_wer_spec "abc def" "abc def").2.2.1 rfl⟩

/-- C9 (amended): every per-page score `compute_page_wer` produces is a
non-negative rational — but it is not bounded by `1`: word error rates
above `1` occur whenever the OCR text needs more insertions than the
reference has words.  The `-1` sentinel never comes out of the numeric
path (it marks a missing reference file or a failed computation). -/
theorem wer_score_nonneg :
    ∀ ocr_text reference_text : String,
      0 ≤ compute_page_wer ocr_text reference_text :=
  compute_page_wer_nonneg_aux

/-- Counterexample to C9 as stated: the page score for OCR text
`"b c d"` against reference `"a"` is `3`, which is neither in `[0, 1]`
nor the sentinel `-1`. -/
theorem wer_score_range_counterexample :
    compute_page_wer "b c d" "a" = 3 ∧
    ¬ (((0 : ℚ) ≤ compute_page_wer "b c d" "a" ∧ compute_page_wer "b c d" "a" ≤ 1) ∨
       compute_page_wer "b c d" "a" = -1) := by
  have h1 : compute_page_wer "b c d" "a" =
      round4 (compute_wer (normalize_text "a") (normalize_text "b c d")) := rfl
  have h2 : levenshtein (wordsOf (normalize_text "a")) (wordsOf (normalize_text "b c d")) = 3 := by
    decide
  have h3 : (wordsOf (normalize_text "a")).length = 1 := by decide
  have h4 : compute_wer (normalize_text "a") (normalize_text "b c d") = 3 := by
    unfold compute_wer
    rw [h2, h3]
    norm_num
  have h5 : compute_page_wer "b c d" "a" = 3 := by
    rw [h1, h4]
    unfold round4
    rw [show ((3 : ℚ) * 10000) = ((30000 : ℤ) : ℚ) by norm_num, roundHalfEven_intCast]
    norm_num
  refine ⟨h5, ?_⟩
  rw [h5]
  norm_num

/-! ## Lemmas: score extraction -/

theorem lineScore_none_of_not_contains {label line : List Char}
    (h : containsSub label line = false) : lineScore label line = none := by
  unfold lineScore
  simp [h]

theorem numValue_nonneg : ∀ pr : List Char × Option (List Char), 0 ≤ numValue pr := by
  intro ⟨ds, fr⟩
  cases fr with
  | none => simp [numValue]
  | some f =>
    unfold numValue
    positivity

theorem lineScore_nonneg {label line : List Char} {v : ℚ}
    (h : lineScore label line = some v) : 0 ≤ v := by
  unfold lineScore at h
  split at h
  · dsimp only at h
    split at h
    · rw [Option.map_eq_some'] at h
      obtain ⟨m, _, rfl⟩ := h
      exact numValue_nonneg m
    · exact absurd h (by simp)
  · exact absurd h (by simp)

theorem extract_score_eq_zero_of_all_none {text label : String}
    (h : ∀ line ∈ splitOnChar '\n' text.data, lineScore label.data line = none) :
    extract_score text label = 0 := by
  unfold extract_score
  rw [List.findSome?_eq_none_iff.2 h]

/-- Counterexample to C3 as stated: a text that contains the line
`"SCORE_4B: **82**"` but extracts `7`, because an earlier line already
carries the label with a numeric token and the scan returns the first
hit. -/
theorem extract_score_first_counterexample :
    ("SCORE_4B: **82**".data ∈ splitOnChar '\n' "SCORE_4B: 7\nSCORE_4B: **82**\n".data) ∧
    extract_score "SCORE_4B: 7\nSCORE_4B: **82**\n" "SCORE_4B" = 7 ∧ (7 : ℚ) ≠ 82 :=
  ⟨by decide, by decide, by norm_num⟩

/-- C3 (amended): for the text `"SCORE_4B: **82**\n"` itself the extracted
score for `SCORE_4B` is `82` (for a text merely containing that line, the
first label-bearing line with a numeric token wins); for
`"SCORE_8B: 91.5 (borderline)"` the score for `SCORE_8B` is `91.5`; and
whenever no line contains the label — or, more generally, no line yields
a numeric token after the label — the result is `0` rather than an
error. -/
theorem extract_score_spec :
    extract_score "SCORE_4B: **82**\n" "SCORE_4B" = 82 ∧
    extract_score "SCORE_8B: 91.5 (borderline)" "SCORE_8B" = 91.5 ∧
    (∀ text label : String,
      (∀ line ∈ splitOnChar '\n' text.data, containsSub label.data line = false) →
      extract_score text label = 0) ∧
    (∀ text label : String,
      (∀ line ∈ splitOnChar '\n' text.data, lineScore label.data line = none) →
      extract_score text label = 0) := by
  refine ⟨by decide, ?_, ?_, ?_⟩
  · have h : extract_score "SCORE_8B: 91.5 (borderline)" "SCORE_8B" =
        numValue (['9', '1'], some ['5']) := rfl
    rw [h]
    have h91 : digitsToNat ['9', '1'] = 91 := by decide
    have h5 : digitsToNat ['5'] = 5 := by decide
    have hval : numValue (['9', '1'], some ['5']) =
        (digitsToNat ['9', '1'] : ℚ) + (digitsToNat ['5'] : ℚ) / 10 ^ (['5'] : List Char).length :=
      rfl
    rw [hval, h91, h5]
    norm_num
  · intro text label h
    exact extract_score_eq_zero_of_all_none
      (fun line hl => lineScore_none_of_not_contains (h line hl))
  · intro text label h
    exact extract_score_eq_zero_of_all_none h

/-- Witness for C3's universally quantified parts at concrete inputs. -/
theorem extract_score_spec_witness :
    (∀ line ∈ splitOnChar '\n' "hello world".data, containsSub "SCORE_4B".data line = false) ∧
    extract_score "hello world" "SCORE_4B" = 0 ∧
    (∀ line ∈ splitOnChar '\n' "SCORE_4B: none".data, lineScore "SCORE_4B".data line = none) ∧
    extract_score "SCORE_4B: none" "SCORE_4B" = 0 :=
  ⟨by decide, extract_score_spec.2.2.1 "hello world" "SCORE_4B" (by decide),
   by decide, extract_score_spec.2.2.2 "SCORE_4B: none" "SCORE_4B" (by decide)⟩

/-- Counterexample to C8 as stated: grader output `"SCORE_4B: 150"`
extracts the score `150`, which exceeds `100` — extraction does not clamp
to the instructed 0–100 range. -/
theorem extract_score_range_counterexample :
    extract_score "SCORE_4B: 150" "SCORE_4B" = 150 ∧
    ¬ ((0 : ℚ) ≤ extract_score "SCORE_4B: 150" "SCORE_4B" ∧
       extract_score "SCORE_4B: 150" "SCORE_4B" ≤ 100) := by
  have h : extract_score "SCORE_4B: 150" "SCORE_4B" = 150 := by decide
  refine ⟨h, ?_⟩
  rw [h]
  norm_num

/-- C8 (amended): every extracted score is a non-negative rational
(`0` for unparseable output; the numeric pattern matches no sign), but no
upper bound is enforced — values above `100` pass through unclamped. -/
theorem extract_score_nonneg :
    ∀ text label : String, 0 ≤ extract_score text label := by
  intro text label
  unfold extract_score
  rcases hfs : (splitOnChar '\n' text.data).findSome? (lineScore label.data) with _ | v
  · simp
  · obtain ⟨line, _, hline⟩ := List.exists_of_findSome?_eq_some hfs
    simpa using lineScore_nonneg hline

/-! ## Lemmas: cosine similarity -/

theorem normSq_nonneg (a : Vec) : 0 ≤ normSq a := by
  unfold normSq
  apply List.sum_nonneg
  intro x hx
  obtain ⟨y, _, rfl⟩ := List.mem_map.1 hx
  exact mul_self_nonneg y

theorem dotQ_comm (a b : Vec) : dotQ a b = dotQ b a := by
  unfold dotQ
  rw [List.zipWith_comm_of_comm _ mul_comm]

theorem dotQ_self (a : Vec) : dotQ a a = normSq a := by
  unfold dotQ normSq
  rw [List.zipWith_same]

/-- C6: cosine similarity is symmetric, equals `1` on any vector of
positive norm paired with itself, and is `0` (without error) whenever
either vector has zero norm (`‖a‖ > 0` iff `normSq a > 0` in the exact
model). -/
theorem cosine_similarity_props :
    ∀ a b : Vec, a.length = b.length →
      cosine_similarity a b = cosine_similarity b a ∧
      (0 < normSq a → cosine_similarity a a = Except.ok 1) ∧
      (normSq a = 0 ∨ normSq b = 0 → cosine_similarity a b = Except.ok 0) := by
  intro a b hlen
  refine ⟨?_, ?_, ?_⟩
  · unfold cosine_similarity
    by_cases hz : normSq a = 0 ∨ normSq b = 0
    · rw [if_pos hz, if_pos (Or.symm hz)]
    · rw [if_neg hz, if_neg (fun h => hz (Or.symm h)),
        if_neg (fun h => h hlen), if_neg (fun h => h hlen.symm),
        dotQ_comm, mul_comm]
  · intro hpos
    unfold cosine_similarity
    rw [if_neg (by simp [hpos.ne']), if_neg (fun h => h rfl)]
    have hs : Real.sqrt (normSq a : ℝ) * Real.sqrt (normSq a : ℝ) = (normSq a : ℝ) :=
      Real.mul_self_sqrt (by exact_mod_cast normSq_nonneg a)
    rw [dotQ_self, hs, div_self (by exact_mod_cast hpos.ne')]
  · intro hz
    unfold cosine_similarity
    rw [if_pos hz]

/-- Witness for C6 at concrete vectors. -/
theorem cosine_similarity_props_witness :
    cosine_similarity [1, 2] [2, 1] = cosine_similarity [2, 1] [1, 2] ∧
    cosine_similarity [1, 2] [1, 2] = Except.ok 1 ∧
    cosine_similarity [0, 0] [2, 1] = Except.ok 0 :=
  ⟨(cosine_similarity_props [1, 2] [2, 1] rfl).1,
   (cosine_similarity_props [1, 2] [1, 2] rfl).2.1 (by norm_num [normSq]),
   (cosine_similarity_props [0, 0] [2, 1] rfl).2.2 (Or.inl (by norm_num [normSq]))⟩

/-- Counterexample to C5 as stated: the vectors `[0]` and `[1, 2]` have
different dimensions, yet `cosine_similarity` returns the numeric score
`0.0` instead of raising — the zero-norm check fires before `np.dot`
would see the shape mismatch. -/
theorem dimension_mismatch_counterexample :
    ([0] : Vec).length ≠ ([1, 2] : Vec).length ∧
    cosine_similarity [0] [1, 2] = Except.ok 0 := by
  constructor
  · decide
  · unfold cosine_similarity
    rw [if_pos (Or.inl (by norm_num [normSq]))]

theorem scoreAll_error_of_mem {q : Vec} :
    ∀ (stored : List Cand) (c : Cand), c ∈ stored →
      cosine_similarity q c.embedding = Except.error () →
      scoreAll q stored = Except.error () := by
  intro stored
  induction stored with
  | nil => intro c hc; simp at hc
  | cons c0 rest ih =>
    intro c hc herr
    rcases List.mem_cons.1 hc with rfl | hc
    · unfold scoreAll
      rw [herr]
    · unfold scoreAll
      rcases hcos : cosine_similarity q c0.embedding with e | s
      · cases e; rfl
      · rw [ih c hc herr]

/-- C5 (amended): a dimension mismatch raises (propagating out of
`retrieve_top_k`) only when **both** vectors have nonzero norm; if either
vector has zero norm the zero-norm rule fires first and the numeric score
`0.0` is returned even for mismatched dimensions. -/
theorem cosine_similarity_mismatch_spec :
    (∀ a b : Vec, a.length ≠ b.length → normSq a ≠ 0 → normSq b ≠ 0 →
      cosine_similarity a b = Except.error ()) ∧
    (∀ a b : Vec, normSq a = 0 ∨ normSq b = 0 →
      cosine_similarity a b = Except.ok 0) ∧
    (∀ (q : Vec) (stored : List Cand) (k : Nat) (c : Cand), c ∈ stored →
      cosine_similarity q c.embedding = Except.error () →
      retrieve_top_k q stored k = Except.error ()) := by
  refine ⟨?_, ?_, ?_⟩
  · intro a b hlen ha hb
    unfold cosine_similarity
    rw [if_neg (by simp [ha, hb]), if_pos hlen]
  · intro a b hz
    unfold cosine_similarity
    rw [if_pos hz]
  · intro q stored k c hc herr
    unfold retrieve_top_k
    rw [scoreAll_error_of_mem stored c hc herr]

/-- Witness for C5 (amended) at concrete vectors. -/
theorem cosine_similarity_mismatch_spec_witness :
    cosine_similarity [1] [1, 1] = Except.error () ∧
    cosine_similarity [0] [1] = Except.ok 0 ∧
    retrieve_top_k [1] [{ chunk_text := "A", embedding := [1, 1] }] 3 = Except.error () := by
  have h1 : cosine_similarity [1] [1, 1] = Except.error () :=
    cosine_similarity_mismatch_spec.1 [1] [1, 1] (by decide)
      (by norm_num [normSq]) (by norm_num [normSq])
  exact ⟨h1,
    cosine_similarity_mismatch_spec.2.1 [0] [1] (Or.inl (by norm_num [normSq])),
    cosine_similarity_mismatch_spec.2.2 [1] [{ chunk_text := "A", embedding := [1, 1] }] 3
      { chunk_text := "A", embedding := [1, 1] } (by simp) h1⟩

/-! ## Lemmas: stable descending sort -/

theorem insertDesc_perm (x : Scored) :
    ∀ l : List Scored, List.Perm (insertDesc x l) (x :: l) := by
  intro l
  induction l with
  | nil => rfl
  | cons y ys ih =>
    unfold insertDesc
    by_cases hlt : x.similarity < y.similarity
    · rw [if_pos hlt]
      exact (ih.cons y).trans (List.Perm.swap x y ys)
    · rw [if_neg hlt]

theorem sortDesc_perm : ∀ l : List Scored, List.Perm (sortDesc l) l := by
  intro l
  induction l with
  | nil => rfl
  | cons x xs ih =>
    unfold sortDesc
    exact (insertDesc_perm x (sortDesc xs)).trans (ih.cons x)

theorem insertDesc_sorted (x : Scored) :
    ∀ l : List Scored, l.Pairwise (fun a b => b.similarity ≤ a.similarity) →
      (insertDesc x l).Pairwise (fun a b => b.similarity ≤ a.similarity) := by
  intro l
  induction l with
  | nil => intro _; simp [insertDesc]
  | cons y ys ih =>
    intro h
    have hy : ∀ z ∈ ys, z.similarity ≤ y.similarity :=
      fun z hz => List.rel_of_pairwise_cons h hz
    have hys : ys.Pairwise (fun a b => b.similarity ≤ a.similarity) := h.of_cons
    unfold insertDesc
    by_cases hlt : x.similarity < y.similarity
    · rw [if_pos hlt]
      refine List.pairwise_cons.2 ⟨?_, ih hys⟩
      intro z hz
      rcases List.mem_cons.1 ((insertDesc_perm x ys).mem_iff.1 hz) with rfl | hz
      · exact le_of_lt hlt
      · exact hy z hz
    · rw [if_neg hlt]
      refine List.pairwise_cons.2 ⟨?_, h⟩
      intro z hz
      rcases List.mem_cons.1 hz with rfl | hz
      · exact le_of_not_lt hlt
      · exact le_trans (hy z hz) (le_of_not_lt hlt)

theorem sortDesc_sorted :
    ∀ l : List Scored, (sortDesc l).Pairwise (fun a b => b.similarity ≤ a.similarity) := by
  intro l
  induction l with
  | nil => simp [sortDesc]
  | cons x xs ih =>
    unfold sortDesc
    exact insertDesc_sorted x (sortDesc xs) ih

theorem filter_insertDesc_neg (p : Scored → Bool) (x : Scored) (hx : p x = false) :
    ∀ l : List Scored, (insertDesc x l).filter p = l.filter p := by
  intro l
  induction l with
  | nil => simp [insertDesc, hx]
  | cons y ys ih =>
    unfold insertDesc
    by_cases hlt : x.similarity < y.similarity
    · rw [if_pos hlt]
      rw [List.filter_cons, List.filter_cons, ih]
    · rw [if_neg hlt]
      rw [List.filter_cons, hx]
      simp

theorem filter_insertDesc_pos (p : Scored → Bool) (x : Scored) (hx : p x = true)
    (hskip : ∀ y : Scored, x.similarity < y.similarity → p y = false) :
    ∀ l : List Scored, (insertDesc x l).filter p = x :: l.filter p := by
  intro l
  induction l with
  | nil => simp [insertDesc, hx]
  | cons y ys ih =>
    unfold insertDesc
    by_cases hlt : x.similarity < y.similarity
    · rw [if_pos hlt]
      rw [List.filter_cons, List.filter_cons, hskip y hlt]
      simp only [Bool.false_eq_true, if_false]
      exact ih
    · rw [if_neg hlt]
      rw [List.filter_cons, hx, List.filter_cons]
      simp

theorem filter_sortDesc (v : ℝ) :
    ∀ l : List Scored,
      (sortDesc l).filter (fun e => decide (e.similarity = v)) =
        l.filter (fun e => decide (e.similarity = v)) := by
  intro l
  induction l with
  | nil => simp [sortDesc]
  | cons x xs ih =>
    unfold sortDesc
    by_cases hv : x.similarity = v
    · rw [filter_insertDesc_pos _ x (by simp [hv]) ?_ (sortDesc xs), ih,
        List.filter_cons, if_pos (by simp [hv])]
      intro y hy
      simp only [decide_eq_false_iff_not]
      intro hyv
      rw [hv] at hy
      rw [hyv] at hy
      exact lt_irrefl v hy
    · rw [filter_insertDesc_neg _ x (by simp [hv]) (sortDesc xs), ih,
        List.filter_cons, if_neg (by simp [hv])]

/-! ## Lemmas: deduplication by chunk text -/

theorem dedupSeen_sublist :
    ∀ (l : List Scored) (seen : List String), List.Sublist (dedupSeen seen l) l := by
  intro l
  induction l with
  | nil => intro seen; simp [dedupSeen]
  | cons x xs ih =>
    intro seen
    unfold dedupSeen
    by_cases hmem : x.chunk_text ∈ seen
    · rw [if_pos hmem]
      exact (ih seen).cons x
    · rw [if_neg hmem]
      exact (ih (x.chunk_text :: seen)).cons₂ x

theorem mem_dedupSeen : ∀ (l : List Scored) (seen : List String) (e : Scored),
    e ∈ dedupSeen seen l → e ∈ l ∧ e.chunk_text ∉ seen := by
  intro l
  induction l with
  | nil => intro seen e he; simp [dedupSeen] at he
  | cons x xs ih =>
    intro seen e he
    unfold dedupSeen at he
    by_cases hmem : x.chunk_text ∈ seen
    · rw [if_pos hmem] at he
      obtain ⟨h1, h2⟩ := ih seen e he
      exact ⟨List.mem_cons_of_mem x h1, h2⟩
    · rw [if_neg hmem] at he
      rcases List.mem_cons.1 he with rfl | he
      · exact ⟨List.mem_cons_self _ _, hmem⟩
      · obtain ⟨h1, h2⟩ := ih (x.chunk_text :: seen) e he
        exact ⟨List.mem_cons_of_mem x h1, fun hc => h2 (List.mem_cons_of_mem _ hc)⟩

theorem dedupSeen_texts_nodup :
    ∀ (l : List Scored) (seen : List String),
      ((dedupSeen seen l).map (fun e => e.chunk_text)).Nodup := by
  intro l
  induction l with
  | nil => intro seen; simp [dedupSeen]
  | cons x xs ih =>
    intro seen
    unfold dedupSeen
    by_cases hmem : x.chunk_text ∈ seen
    · rw [if_pos hmem]
      exact ih seen
    · rw [if_neg hmem]
      rw [List.map_cons, List.nodup_cons]
      refine ⟨?_, ih (x.chunk_text :: seen)⟩
      intro hc
      obtain ⟨e, he, het⟩ := List.mem_map.1 hc
      have := (mem_dedupSeen xs (x.chunk_text :: seen) e he).2
      exact this (het ▸ List.mem_cons_self _ _)

theorem dedupSeen_max :
    ∀ (l : List Scored) (seen : List String) (e : Scored),
      l.Pairwise (fun a b => b.similarity ≤ a.similarity) →
      e ∈ dedupSeen seen l →
      ∀ e' ∈ l, e'.chunk_text = e.chunk_text → e'.similarity ≤ e.similarity := by
  intro l
  induction l with
  | nil => intro seen e _ he; simp [dedupSeen] at he
  | cons x xs ih =>
    intro seen e hp he e' he' ht
    have hx : ∀ z ∈ xs, z.similarity ≤ x.similarity :=
      fun z hz => List.rel_of_pairwise_cons hp hz
    have hxs : xs.Pairwise (fun a b => b.similarity ≤ a.similarity) := hp.of_cons
    unfold dedupSeen at he
    by_cases hmem : x.chunk_text ∈ seen
    · rw [if_pos hmem] at he
      rcases List.mem_cons.1 he' with rfl | he'
      · exfalso
        have := (mem_dedupSeen xs seen e he).2
        rw [ht] at hmem
        exact this hmem
      · exact ih seen e hxs he e' he' ht
    · rw [if_neg hmem] at he
      rcases List.mem_cons.1 he with rfl | he
      · rcases List.mem_cons.1 he' with rfl | he'
        · exact le_refl _
        · exact hx e' he'
      · rcases List.mem_cons.1 he' with rfl | he'
        · exfalso
          have := (mem_dedupSeen xs (e'.chunk_text :: seen) e he).2
          exact this (ht ▸ List.mem_cons_self _ _)
        · exact ih (x.chunk_text :: seen) e hxs he e' he' ht

theorem mem_map_dedupSeen :
    ∀ (l : List Scored) (seen : List String) (t : String),
      t ∈ (dedupSeen seen l).map (fun e => e.chunk_text) ↔
        (t ∈ l.map (fun e => e.chunk_text) ∧ t ∉ seen) := by
  intro l
  induction l with
  | nil => intro seen t; simp [dedupSeen]
  | cons x xs ih =>
    intro seen t
    unfold dedupSeen
    by_cases hmem : x.chunk_text ∈ seen
    · rw [if_pos hmem, ih, List.map_cons]
      constructor
      · rintro ⟨h1, h2⟩
        exact ⟨List.mem_cons_of_mem _ h1, h2⟩
      · rintro ⟨h1, h2⟩
        rcases List.mem_cons.1 h1 with rfl | h1
        · exact absurd hmem h2
        · exact ⟨h1, h2⟩
    · rw [if_neg hmem, List.map_cons, List.map_cons]
      constructor
      · intro h
        rcases List.mem_cons.1 h with rfl | h
        · exact ⟨List.mem_cons_self _ _, hmem⟩
        · obtain ⟨h1, h2⟩ := (ih (x.chunk_text :: seen) t).1 h
          exact ⟨List.mem_cons_of_mem _ h1,
            fun hc => h2 (List.mem_cons_of_mem _ hc)⟩
      · rintro ⟨h1, h2⟩
        rcases List.mem_cons.1 h1 with rfl | h1
        · exact List.mem_cons_self _ _
        · by_cases hxt : t = x.chunk_text
          · rw [hxt]
            exact List.mem_cons_self _ _
          · refine List.mem_cons_of_mem _ ((ih (x.chunk_text :: seen) t).2 ⟨h1, ?_⟩)
            intro hc
            rcases List.mem_cons.1 hc with h | h
            · exact hxt h
            · exact h2 h

theorem dedupFirst_length (l : List Scored) :
    (dedupFirst l).length = ((l.map (fun e => e.chunk_text)).dedup).length := by
  have h1 : (dedupFirst l).length = ((dedupFirst l).map (fun e => e.chunk_text)).length := by
    rw [List.length_map]
  rw [h1]
  apply List.Perm.length_eq
  have hnd : ((dedupFirst l).map (fun e => e.chunk_text)).Nodup := dedupSeen_texts_nodup l []
  rw [List.perm_ext_iff_of_nodup hnd (List.nodup_dedup _)]
  intro t
  rw [List.mem_dedup]
  have hmm := mem_map_dedupSeen l [] t
  unfold dedupFirst
  rw [hmm]
  simp

/-! ## Lemmas: the scoring pass of `retrieve_top_k` -/

theorem cosine_similarity_ok_eq {a b : Vec} {s : ℝ}
    (h : cosine_similarity a b = Except.ok s) : s = cosValue a b := by
  unfold cosine_similarity at h
  unfold cosValue
  by_cases hz : normSq a = 0 ∨ normSq b = 0
  · rw [if_pos hz] at h
    rw [if_pos hz]
    exact (Except.ok.inj h).symm
  · rw [if_neg hz] at h
    rw [if_neg hz]
    by_cases hlen : a.length ≠ b.length
    · rw [if_pos hlen] at h
      exact absurd h (by simp)
    · rw [if_neg hlen] at h
      exact (Except.ok.inj h).symm

theorem scoreAll_ok_eq {q : Vec} :
    ∀ {stored : List Cand} {m : List Scored},
      scoreAll q stored = Except.ok m → m = scoredOf q stored := by
  intro stored
  induction stored with
  | nil =>
    intro m h
    unfold scoreAll at h
    simpa [scoredOf] using (Except.ok.inj h).symm
  | cons c rest ih =>
    intro m h
    unfold scoreAll at h
    rcases hcos : cosine_similarity q c.embedding with e | s
    · rw [hcos] at h
      exact absurd h (by simp)
    · rw [hcos] at h
      rcases hrest : scoreAll q rest with e | tl
      · rw [hrest] at h
        exact absurd h (by simp)
      · rw [hrest] at h
        have hm := (Except.ok.inj h).symm
        rw [hm, scoredOf, List.map_cons, ← scoredOf, ← ih hrest,
          cosine_similarity_ok_eq hcos]

theorem scoreAll_ok_forall {q : Vec} :
    ∀ {stored : List Cand} {m : List Scored},
      scoreAll q stored = Except.ok m →
      ∀ c ∈ stored, cosine_similarity q c.embedding = Except.ok (cosValue q c.embedding) := by
  intro stored
  induction stored with
  | nil => intro m _ c hc; simp at hc
  | cons c0 rest ih =>
    intro m h c hc
    unfold scoreAll at h
    rcases hcos : cosine_similarity q c0.embedding with e | s
    · rw [hcos] at h
      exact absurd h (by simp)
    · rw [hcos] at h
      rcases hrest : scoreAll q rest with e | tl
      · rw [hrest] at h
        exact absurd h (by simp)
      · rcases List.mem_cons.1 hc with rfl | hc
        · rw [hcos, cosine_similarity_ok_eq hcos]
        · exact ih hrest c hc

theorem retrieve_top_k_ok {q : Vec} {stored : List Cand} {k : Nat} {out : List Scored}
    (h : retrieve_top_k q stored k = Except.ok out) :
    scoreAll q stored = Except.ok (scoredOf q stored) ∧
      out = (dedupFirst (sortDesc (scoredOf q stored))).take k := by
  unfold retrieve_top_k at h
  rcases hsc : scoreAll q stored with e | m
  · rw [hsc] at h
    exact absurd h (by simp)
  · rw [hsc] at h
    have hm := scoreAll_ok_eq hsc
    subst hm
    have h2 : Except.ok ((dedupFirst (sortDesc (scoredOf q stored))).take k) = Except.ok out := h
    exact ⟨rfl, (Except.ok.inj h2).symm⟩

theorem scoredOf_texts (q : Vec) (stored : List Cand) :
    (scoredOf q stored).map (fun e => e.chunk_text) = stored.map (fun c => c.chunk_text) := by
  unfold scoredOf
  rw [List.map_map]
  rfl

theorem exRetrieve_eval :
    retrieve_top_k [1] [Cand.mk "A" [1], Cand.mk "A" [1], Cand.mk "B" [0]] 2 =
      Except.ok [Scored.mk "A" [1] 1, Scored.mk "B" [0] 0] := by
  have hn1 : normSq [1] = 1 := by norm_num [normSq]
  have hA : cosine_similarity [1] ([1] : Vec) = Except.ok 1 := by
    unfold cosine_similarity
    rw [if_neg (by rw [hn1]; norm_num), if_neg (fun h => h rfl), hn1,
      show dotQ [1] [1] = 1 from by norm_num [dotQ]]
    norm_num
  have hB : cosine_similarity [1] ([0] : Vec) = Except.ok 0 := by
    unfold cosine_similarity
    rw [if_pos (Or.inr (by norm_num [normSq]))]
  have hscore : scoreAll [1] [Cand.mk "A" [1], Cand.mk "A" [1], Cand.mk "B" [0]] =
      Except.ok [Scored.mk "A" [1] 1, Scored.mk "A" [1] 1, Scored.mk "B" [0] 0] := by
    simp only [scoreAll]
    rw [hA, hB]
  have i1 : insertDesc (Scored.mk "A" [1] 1) [Scored.mk "B" [0] 0] =
      [Scored.mk "A" [1] 1, Scored.mk "B" [0] 0] := by
    unfold insertDesc
    rw [if_neg (by norm_num : ¬ ((1 : ℝ) < (0 : ℝ)))]
  have i2 : insertDesc (Scored.mk "A" [1] 1) [Scored.mk "A" [1] 1, Scored.mk "B" [0] 0] =
      [Scored.mk "A" [1] 1, Scored.mk "A" [1] 1, Scored.mk "B" [0] 0] := by
    unfold insertDesc
    rw [if_neg (by norm_num : ¬ ((1 : ℝ) < (1 : ℝ)))]
  have hsort : sortDesc [Scored.mk "A" [1] 1, Scored.mk "A" [1] 1, Scored.mk "B" [0] 0] =
      [Scored.mk "A" [1] 1, Scored.mk "A" [1] 1, Scored.mk "B" [0] 0] := by
    simp only [sortDesc]
    rw [show insertDesc (Scored.mk "B" [0] 0) [] = [Scored.mk "B" [0] 0] from rfl, i1, i2]
  unfold retrieve_top_k
  rw [hscore]
  dsimp only
  rw [hsort]
  rfl

/-- C1: on the non-raising path, `retrieve_top_k` returns each distinct
chunk text at most once, and the similarity recorded on the kept entry is
the maximum cosine similarity over all stored candidates bearing that
text (the kept entry attains it and bounds every other occurrence). -/
theorem retrieve_top_k_dedup_max :
    ∀ (q : Vec) (stored : List Cand) (k : Nat) (out : List Scored),
      retrieve_top_k q stored k = Except.ok out →
      ((out.map (fun e => e.chunk_text)).Nodup ∧
       ∀ e ∈ out,
         (∃ c ∈ stored, c.chunk_text = e.chunk_text ∧
           cosine_similarity q c.embedding = Except.ok e.similarity) ∧
         (∀ c ∈ stored, c.chunk_text = e.chunk_text →
           ∀ s : ℝ, cosine_similarity q c.embedding = Except.ok s →
             s ≤ e.similarity)) := by
  intro q stored k out h
  obtain ⟨hsc, hout⟩ := retrieve_top_k_ok h
  have hsub1 : List.Sublist out (dedupFirst (sortDesc (scoredOf q stored))) := by
    rw [hout]; exact List.take_sublist _ _
  have hsub2 : List.Sublist (dedupFirst (sortDesc (scoredOf q stored)))
      (sortDesc (scoredOf q stored)) := dedupSeen_sublist _ []
  constructor
  · exact List.Nodup.sublist (hsub1.map _) (dedupSeen_texts_nodup _ [])
  · intro e he
    have hded : e ∈ dedupFirst (sortDesc (scoredOf q stored)) := hsub1.subset he
    have hsorted : e ∈ sortDesc (scoredOf q stored) := hsub2.subset hded
    have hmem : e ∈ scoredOf q stored := (sortDesc_perm _).mem_iff.1 hsorted
    obtain ⟨c0, hc0, he0⟩ := List.mem_map.1 hmem
    constructor
    · refine ⟨c0, hc0, ?_, ?_⟩
      · rw [← he0]
      · rw [scoreAll_ok_forall hsc c0 hc0, ← he0]
    · intro c hc hct s hcs
      have hs : s = cosValue q c.embedding := cosine_similarity_ok_eq hcs
      have hmem' : Scored.mk c.chunk_text c.embedding (cosValue q c.embedding) ∈
          scoredOf q stored := List.mem_map_of_mem _ hc
      have hsorted' : Scored.mk c.chunk_text c.embedding (cosValue q c.embedding) ∈
          sortDesc (scoredOf q stored) := (sortDesc_perm _).mem_iff.2 hmem'
      have hmax := dedupSeen_max (sortDesc (scoredOf q stored)) [] e
        (sortDesc_sorted _) hded _ hsorted' hct
      rw [hs]
      exact hmax

/-- Witness for C1 at a concrete query and candidate pool containing a
duplicated text. -/
theorem retrieve_top_k_dedup_max_witness :
    (([Scored.mk "A" [1] 1, Scored.mk "B" [0] 0]).map (fun e => e.chunk_text)).Nodup :=
  (retrieve_top_k_dedup_max [1] [Cand.mk "A" [1], Cand.mk "A" [1], Cand.mk "B" [0]] 2 _
    exRetrieve_eval).1

/-- C2: on the non-raising path, the output length is
`min k (number of distinct candidate texts)`; the output is sorted by
similarity, descending; and the claim's strict descent refers to the
lexicographic similarity/original-position key — ties are broken by the
original candidate order, which the filter clause captures: the entries of
any fixed similarity appear as an in-order sublist of the scored
candidate list. -/
theorem retrieve_top_k_order :
    ∀ (q : Vec) (stored : List Cand) (k : Nat) (out : List Scored),
      retrieve_top_k q stored k = Except.ok out →
      out.length = min k ((stored.map (fun c => c.chunk_text)).dedup).length ∧
      out.Pairwise (fun a b => b.similarity ≤ a.similarity) ∧
      ∀ v : ℝ, List.Sublist (out.filter (fun e => decide (e.similarity = v)))
        ((scoredOf q stored).filter (fun e => decide (e.similarity = v))) := by
  intro q stored k out h
  obtain ⟨hsc, hout⟩ := retrieve_top_k_ok h
  have hsub1 : List.Sublist out (dedupFirst (sortDesc (scoredOf q stored))) := by
    rw [hout]; exact List.take_sublist _ _
  have hsub2 : List.Sublist (dedupFirst (sortDesc (scoredOf q stored)))
      (sortDesc (scoredOf q stored)) := dedupSeen_sublist _ []
  refine ⟨?_, ?_, ?_⟩
  · rw [hout, List.length_take, dedupFirst_length]
    have hperm : List.Perm ((sortDesc (scoredOf q stored)).map (fun e => e.chunk_text))
        ((scoredOf q stored).map (fun e => e.chunk_text)) := (sortDesc_perm _).map _
    rw [(hperm.dedup).length_eq, scoredOf_texts]
  · exact List.Pairwise.sublist (hsub1.trans hsub2) (sortDesc_sorted _)
  · intro v
    have h1 : List.Sublist (out.filter (fun e => decide (e.similarity = v)))
        ((sortDesc (scoredOf q stored)).filter (fun e => decide (e.similarity = v))) :=
      List.Sublist.filter _ (hsub1.trans hsub2)
    rw [filter_sortDesc v] at h1
    exact h1

/-- Witness for C2 at the same concrete pool: the output keeps
`min 2 2 = 2` of the three candidates. -/
theorem retrieve_top_k_order_witness :
    ([Scored.mk "A" [1] 1, Scored.mk "B" [0] 0]).length =
      min 2 ((([Cand.mk "A" [1], Cand.mk "A" [1], Cand.mk "B" [0]]).map
        (fun c => c.chunk_text)).dedup).length :=
  (retrieve_top_k_order [1] [Cand.mk "A" [1], Cand.mk "A" [1], Cand.mk "B" [0]] 2 _
    exRetrieve_eval).1

/-! ## Lemmas: the chunking stage -/

/-- Counterexample to C7 as stated: a session that still holds one
embedding row and one answer/evaluation row re-runs chunking
successfully, and both rows survive — `create_chunks` clears only the two
chunk tables. -/
theorem create_chunks_cascade_counterexample :
    create_chunks
      (SessionDb.mk ["page one text"] [] [] [EmbR.mk 1 "recursive" "old chunk" none none]
        [EvalR.mk 1 "4b" "recursive" "old answer" none] "embedded")
      [ChunkR.mk 1 0 "new chunk"] [] =
      Except.ok (SessionDb.mk ["page one text"] [ChunkR.mk 1 0 "new chunk"] []
        [EmbR.mk 1 "recursive" "old chunk" none none]
        [EvalR.mk 1 "4b" "recursive" "old answer" none] "chunked") ∧
    ¬ ([EmbR.mk 1 "recursive" "old chunk" none none] = ([] : List EmbR) ∧
       [EvalR.mk 1 "4b" "recursive" "old answer" none] = ([] : List EvalR)) := by
  constructor
  · rfl
  · intro hcontra
    exact absurd hcontra.1 (by simp)

/-- C7 (amended): a successful chunking re-run replaces both chunk sets
and advances the status to `"chunked"`, but deletes no downstream
records — the session's embedding rows and answer/evaluation rows are
left untouched (each later stage clears its own records only when it is
itself re-run; the full cascade happens on session delete or
override-upload). -/
theorem create_chunks_spec :
    ∀ (db : SessionDb) (newRec newAg : List ChunkR) (db' : SessionDb),
      create_chunks db newRec newAg = Except.ok db' →
      db'.recChunks = newRec ∧ db'.agChunks = newAg ∧ db'.status = "chunked" ∧
      db'.chunkEmbeddings = db.chunkEmbeddings ∧
      db'.evaluationResults = db.evaluationResults ∧
      db'.ocrPages = db.ocrPages := by
  intro db newRec newAg db' h
  unfold create_chunks at h
  by_cases hp : db.ocrPages.isEmpty
  · rw [if_pos hp] at h
    exact absurd h (by simp)
  · rw [if_neg hp] at h
    have h' := Except.ok.inj h
    rw [← h']
    exact ⟨rfl, rfl, rfl, rfl, rfl, rfl⟩

/-- Witness for C7 (amended) at the counterexample state. -/
theorem create_chunks_spec_witness :
    (SessionDb.mk ["page one text"] [ChunkR.mk 1 0 "new chunk"] []
        [EmbR.mk 1 "recursive" "old chunk" none none]
        [EvalR.mk 1 "4b" "recursive" "old answer" none] "chunked").chunkEmbeddings =
      (SessionDb.mk ["page one text"] [] [] [EmbR.mk 1 "recursive" "old chunk" none none]
        [EvalR.mk 1 "4b" "recursive" "old answer" none] "embedded").chunkEmbeddings :=
  (create_chunks_spec
    (SessionDb.mk ["page one text"] [] [] [EmbR.mk 1 "recursive" "old chunk" none none]
      [EvalR.mk 1 "4b" "recursive" "old answer" none] "embedded")
    [ChunkR.mk 1 0 "new chunk"] [] _ (by rfl)).2.2.2.1

end RagBench
